import Mathlib

/-!
Verification of the profit-curve pipeline (bronze_clean.py, silver_join.py,
feature_build.py) against its natural-language specification.

Shallow embedding conventions:
* calendar dates are `Nat` (days since a fixed epoch);
* numeric values are `ℚ` (pandas floats, restricted to the exact fragment
  the claims exercise);
* a pandas `NaN`/missing cell is `none : Option ℚ`; pandas comparisons with
  `NaN` are `false`, mirrored by matching on `Option`;
* a pandas DataFrame column is a `List` in row order; a keyed frame is a
  `List (key × value)` accessed with `List.lookup`;
* a raised Python exception is `Except.error`.
-/

namespace ProfitCurve

/-- `INFO_LAG_DAYS = 45` from feature_build.py (filing usable 45 days after
period end). -/
def INFO_LAG_DAYS : Nat := 45

/-- `MAX_FF_DAYS = 400` from feature_build.py (forward-fill limit in days). -/
def MAX_FF_DAYS : Nat := 400

/-- the fixed 63-position label horizon of `shift(-63)` in feature_build.py. -/
def HORIZON_DAYS : Nat := 63

/-- one reported observation `rec` of a us-gaap unit series in the raw SEC
document (`rec["fy"]`, `rec["fp"]`, `rec["end"]`, `rec["val"]`). -/
structure ObsRec where
  fy : Nat
  fp : String
  endDate : Nat
  val : ℚ
deriving DecidableEq

/-- one tag's entry in the us-gaap dict; the code only ever reads its
`"units"` sub-dict (unit name → observation list). -/
structure TagEntry where
  units : List (String × List ObsRec)
deriving DecidableEq

/-- the `us-gaap` dict: tag name → entry. -/
abbrev GaapDict := List (String × TagEntry)

/-- a raw company JSON blob; `none` fields model missing top-level keys
(`blob["cik"]` / `blob["facts"]` raise `KeyError` when missing). -/
structure RawDoc where
  cik : Option String
  facts : Option (List (String × GaapDict))
deriving DecidableEq

/-- `TAG_MAP` from bronze_clean.py: canonical column → ordered SEC tag
synonym list. -/
def TAG_MAP : List (String × List String) :=
  [ ("assets", ["Assets"]),
    ("liabilities", ["Liabilities"]),
    ("equity",
      [ "StockholdersEquity",
        "StockholdersEquityIncludingPortionAttributableToParent",
        "StockholdersEquityIncludingPortionAttributableToNoncontrollingInterest",
        "TotalEquityGross" ]),
    ("revenue", ["Revenues"]),
    ("cogs", ["CostOfRevenue"]),
    ("net_income", ["NetIncomeLoss"]),
    ("operating_cf", ["NetCashProvidedByUsedInOperatingActivities"]),
    ("capex", ["CapitalExpenditures"]),
    ("eps_diluted", ["EarningsPerShareDiluted"]) ]

/-- `KEEP_PERIODS` from bronze_clean.py. -/
def KEEP_PERIODS : List String := ["Q1", "Q2", "Q3", "Q4", "FY"]

/-- one long-form row appended by `extract_company_table`'s inner loop. -/
structure Fact where
  cik : String
  endDate : Nat
  fy : Nat
  fp : String
  concept : String
  value : ℚ
deriving DecidableEq

/-- `us_gaap.get(tag, {}).get("units", {}).get(unit)` of bronze_clean.py,
with Python's falsy `None` and falsy `[]` both rendered as `[]`. -/
def lookupSeries (g : GaapDict) (tag unit : String) : List ObsRec :=
  (((g.lookup tag).getD ⟨[]⟩).units.lookup unit).getD []

/-- `first_numeric_series` of bronze_clean.py: scan `tag_list` in order and
return the first tag's non-empty series under `unit`. -/
def first_numeric_series (g : GaapDict) : List String → String → Option (List ObsRec)
  | [], _ => none
  | tag :: rest, unit =>
    if (lookupSeries g tag unit).isEmpty then first_numeric_series g rest unit
    else some (lookupSeries g tag unit)

/-- the facts one canonical concept contributes in `extract_company_table`:
nothing when its synonym scan found no series, else one `Fact` per
observation whose `fp` is in `KEEP_PERIODS`. -/
def mkConceptFacts (cik concept : String) : Option (List ObsRec) → List Fact
  | none => []
  | some series =>
    series.filterMap (fun rec =>
      if rec.fp ∈ KEEP_PERIODS then
        some ⟨cik, rec.endDate, rec.fy, rec.fp, concept, rec.val⟩
      else none)

/-- the `for col, tags in TAG_MAP.items()` loop of `extract_company_table`,
generalized over the tag map so first-match-wins can be proved by
induction. -/
def extractRowsOver (tm : List (String × List String)) (cik : String) (g : GaapDict) :
    List Fact :=
  tm.flatMap (fun ct => mkConceptFacts cik ct.1 (first_numeric_series g ct.2 "USD"))

/-- the long-form `rows` list built by `extract_company_table`. -/
def extractRows (cik : String) (g : GaapDict) : List Fact :=
  extractRowsOver TAG_MAP cik g

/-- the deduplication key of `drop_duplicates(["cik", "fy", "fp", "concept"])`. -/
def dedupKey (f : Fact) : String × Nat × String × String :=
  (f.cik, f.fy, f.fp, f.concept)

/-- insertion step of a stable sort on a `Nat` key (models
`sort_values("end")`; pandas leaves the order of date ties unspecified, and
this fixes one order — no claim depends on the tie order). -/
def insertK {α : Type} (key : α → Nat) (x : α) : List α → List α
  | [] => [x]
  | y :: rest => if key x ≤ key y then x :: y :: rest else y :: insertK key x rest

/-- stable insertion sort on a `Nat` key. -/
def sortK {α : Type} (key : α → Nat) : List α → List α
  | [] => []
  | x :: rest => insertK key x (sortK key rest)

/-- `drop_duplicates(..., keep="last")`: keep an element iff no later
element shares its dedup key. -/
def dropDupLast : List Fact → List Fact
  | [] => []
  | f :: rest =>
    if rest.any (fun g => dedupKey g = dedupKey f) then dropDupLast rest
    else f :: dropDupLast rest

/-- `df_long.sort_values("end").drop_duplicates(["cik","fy","fp","concept"],
keep="last")` of bronze_clean.py. -/
def dedupFacts (l : List Fact) : List Fact :=
  dropDupLast (sortK (fun f => f.endDate) l)

/-- one row of the wide per-entity table `df_wide`: the pivot index tuple
plus the concept → value cells (a concept absent from `cols` is a NaN
cell). -/
structure WideRow where
  cik : String
  endDate : Nat
  fy : Nat
  fp : String
  cols : List (String × ℚ)
deriving DecidableEq

/-- the pivot index tuple `(cik, end, fy, fp)`. -/
abbrev PKey := String × Nat × Nat × String

def pivotKey (f : Fact) : PKey := (f.cik, f.endDate, f.fy, f.fp)

/-- the cells of one pivot row: after deduplication each
`(cik, end, fy, fp, concept)` occurs at most once, so `pivot_table`'s mean
aggregation is the value itself. -/
def colsFor (l : List Fact) (k : PKey) : List (String × ℚ) :=
  l.filterMap (fun f => if pivotKey f = k then some (f.concept, f.value) else none)

def mkWideRow (l : List Fact) (k : PKey) : WideRow :=
  ⟨k.1, k.2.1, k.2.2.1, k.2.2.2, colsFor l k⟩

/-- `pivot_table(index=["cik","end","fy","fp"], columns="concept",
values="value").reset_index().sort_values("end")`: one wide row per distinct
pivot key, sorted by `end`. -/
def pivotRows (l : List Fact) : List WideRow :=
  sortK (fun r => r.endDate) (((l.map pivotKey).dedup).map (mkWideRow l))

/-- a missing top-level key of the blob (Python `KeyError`). -/
inductive DocError where
  | keyError (k : String)
deriving DecidableEq

/-- `extract_company_table` of bronze_clean.py: `blob["cik"]` and
`blob["facts"]` raise on missing keys; an empty `rows` list returns the
empty frame; otherwise dedup then pivot. -/
def extract_company_table (doc : RawDoc) : Except DocError (List WideRow) :=
  match doc.cik with
  | none => .error (.keyError "cik")
  | some cik =>
    match doc.facts with
    | none => .error (.keyError "facts")
    | some facts =>
      let us_gaap := (facts.lookup "us-gaap").getD []
      let rows := extractRows cik us_gaap
      if rows.isEmpty then .ok [] else .ok (pivotRows (dedupFacts rows))

/-- `process_companies` of bronze_clean.py: per file, extract; an empty
table is skipped (no output written); a raised `KeyError` propagates and
aborts the loop, so the result is the list of tables written before the
failure together with the error, if any. -/
def process_companies : List RawDoc → List (List WideRow) × Option DocError
  | [] => ([], none)
  | d :: rest =>
    match extract_company_table d with
    | .error e => ([], some e)
    | .ok t =>
      if t.isEmpty then process_companies rest
      else
        let tail := process_companies rest
        (t :: tail.1, tail.2)

/-- a document whose required top-level keys are all present (the exact
condition under which `extract_company_table` does not raise). -/
def wellFormed (d : RawDoc) : Prop := d.cik.isSome ∧ d.facts.isSome

instance (d : RawDoc) : Decidable (wellFormed d) := by
  unfold wellFormed; infer_instance

/-! ## feature_build.py — temporal alignment of fundamentals to daily -/

/-- `fund["info_date"] = fund["end"] + pd.Timedelta(days=INFO_LAG_DAYS)`. -/
def infoDate (r : WideRow) : Nat := r.endDate + INFO_LAG_DAYS

/-- first index label of the per-entity frame `g.set_index("info_date")`. -/
def startDate (rows : List WideRow) : Nat :=
  match rows.head? with
  | some r => infoDate r
  | none => 0

/-- last index label of the per-entity frame. -/
def stopDate (rows : List WideRow) : Nat :=
  match rows.getLast? with
  | some r => infoDate r
  | none => 0

/-- the daily calendar `asfreq("D")` reindexes onto: every day from the
frame's first index label to its last, inclusive. -/
def dailyDates (rows : List WideRow) : List Nat :=
  match rows with
  | [] => []
  | _ :: _ => List.range' (startDate rows) (stopDate rows - startDate rows + 1)

/-- the raw (pre-fill) cell of column `c` on day `d` after `asfreq("D")`:
the row whose `info_date` is `d` contributes its cell, all other days are
NaN.  (`find?` returns the first such row; `asfreq` is only defined when
`info_date`s are distinct, see `alignE`.) -/
def asfreqCell (rows : List WideRow) (d : Nat) (c : String) : Option ℚ :=
  match rows.find? (fun r => infoDate r = d) with
  | some r => r.cols.lookup c
  | none => none

/-- pandas `Series.ffill(limit=L)`: scan keeping the last valid value and
the count of consecutive NaNs since it; a NaN is filled only while that
count is below `L`. -/
def ffillGo (L : Nat) : Option ℚ → Nat → List (Option ℚ) → List (Option ℚ)
  | _, _, [] => []
  | last, gap, none :: rest =>
    (if gap < L then last else none) :: ffillGo L last (gap + 1) rest
  | _, _, some v :: rest => some v :: ffillGo L (some v) 0 rest

/-- one column of the per-entity daily frame
`g.set_index("info_date").asfreq("D").ffill(limit=MAX_FF_DAYS)`. -/
def alignCol (rows : List WideRow) (L : Nat) (c : String) : List (Option ℚ) :=
  ffillGo L none 0 ((dailyDates rows).map (fun d => asfreqCell rows d c))

/-- that column paired with its calendar dates (the frame rows, keyed). -/
def dailyCol (rows : List WideRow) (L : Nat) (c : String) : List (Nat × Option ℚ) :=
  (dailyDates rows).zip (alignCol rows L c)

/-- the per-entity daily frame over an explicit column set. -/
def dailyTable (rows : List WideRow) (L : Nat) (cols : List String) :
    List (Nat × List (String × Option ℚ)) :=
  (dailyDates rows).map (fun d =>
    (d, cols.map (fun c => (c, ((dailyCol rows L c).lookup d).join))))

/-- per-entity alignment including `asfreq`'s failure mode: reindexing an
index with duplicate labels raises
`ValueError: cannot reindex on an axis with duplicate labels`. -/
def alignE (rows : List WideRow) (L : Nat) (cols : List String) :
    Except String (List (Nat × List (String × Option ℚ))) :=
  if (rows.map infoDate).Nodup then .ok (dailyTable rows L cols)
  else .error "cannot reindex on an axis with duplicate labels"

/-- the `for cik, g in fund.groupby("cik")` loop building `fund_daily`:
an exception in any group aborts the whole run before anything is
produced. -/
def buildFundDaily (groups : List (List WideRow)) (cols : List String) :
    Except String (List (List (Nat × List (String × Option ℚ)))) :=
  match groups with
  | [] => .ok []
  | g :: rest =>
    match alignE g MAX_FF_DAYS cols with
    | .error e => .error e
    | .ok t =>
      match buildFundDaily rest cols with
      | .error e => .error e
      | .ok ts => .ok (t :: ts)

/-! ## feature_build.py — feature table and label -/

/-- one row of a per-ticker price frame (date-indexed `adj_close`). -/
structure PriceRow where
  date : Nat
  adj_close : ℚ
deriving DecidableEq

/-- one row of the `features` frame.  Fields not yet computed by a stage
are carried as `none` / `0` until that stage assigns them.
(`market_cap_log = log1p(market_cap)` is omitted: no claim touches it and
`log` has no exact executable embedding.) -/
structure FeatRow where
  date : Nat
  adj_close : ℚ
  equity : Option ℚ
  liabilities : Option ℚ
  cogs : Option ℚ
  revenue : Option ℚ
  market_cap : Option ℚ
  ticker : String
  debt_equity : Option ℚ
  gross_margin : Option ℚ
  rev_qoq : Option ℚ
  spy_close : Option ℚ
  future_return : Option ℚ
  spy_future_ret : Option ℚ
  excess_ret : Option ℚ
  label_up : Int
deriving DecidableEq

/-- cell of the entity's daily fundamentals at date `d` as seen through the
left join `p.merge(f, on="date", how="left")`: NaN when the date is absent
from the daily frame or the cell itself is NaN. -/
def fundCell (rows : List WideRow) (c : String) (d : Nat) : Option ℚ :=
  ((dailyCol rows MAX_FF_DAYS c).lookup d).join

/-- the per-ticker merge block of feature_build.py: left-join prices with
the entity's daily fundamentals, compute `market_cap` (NaN when shares are
unavailable), tag the ticker. -/
def mergeRows (tkr : String) (prices : List PriceRow) (fundRows : List WideRow)
    (shares : Option ℚ) : List FeatRow :=
  prices.map (fun p =>
    { date := p.date
      adj_close := p.adj_close
      equity := fundCell fundRows "equity" p.date
      liabilities := fundCell fundRows "liabilities" p.date
      cogs := fundCell fundRows "cogs" p.date
      revenue := fundCell fundRows "revenue" p.date
      market_cap := shares.map (fun s => p.adj_close * s)
      ticker := tkr
      debt_equity := none
      gross_margin := none
      rev_qoq := none
      spy_close := none
      future_return := none
      spy_future_ret := none
      excess_ret := none
      label_up := 0 })

/-- `features[features["equity"].notna() & (features["equity"] > 0)]`. -/
def posEquityFilter (l : List FeatRow) : List FeatRow :=
  l.filter (fun r =>
    match r.equity with
    | some e => decide (0 < e)
    | none => false)

/-- the `eps = 1e-9` denominator guard. -/
def epsQ : ℚ := 1 / 1000000000

/-- the row-wise derived ratios `debt_equity` and `gross_margin`
(NaN operands propagate to NaN). -/
def addRatios (l : List FeatRow) : List FeatRow :=
  l.map (fun r =>
    { r with
      debt_equity :=
        match r.liabilities, r.equity with
        | some lb, some e => some (lb / (e + epsQ))
        | _, _ => none
      gross_margin :=
        match r.cogs, r.revenue with
        | some cg, some rv => some (1 - cg / (rv + epsQ))
        | _, _ => none })

/-- `groupby("ticker")["revenue"].transform(pct_change(periods=MAX_FF_DAYS,
fill_method=None))` on one ticker's block: `x[i]/x[i-400] - 1`, NaN when
either operand is missing or the lookback leaves the block. -/
def revQoqGo (g : List FeatRow) : Nat → List FeatRow → List FeatRow
  | _, [] => []
  | i, r :: rest =>
    { r with
      rev_qoq :=
        if MAX_FF_DAYS ≤ i then
          match (g[i - MAX_FF_DAYS]?).bind (fun q => q.revenue), r.revenue with
          | some p, some c => some (c / p - 1)
          | _, _ => none
        else none } :: revQoqGo g (i + 1) rest

def addRevQoq (g : List FeatRow) : List FeatRow := revQoqGo g 0 g

/-- pandas `ffill()` with no limit, for the benchmark series. -/
def ffillNL : Option ℚ → List (Option ℚ) → List (Option ℚ)
  | _, [] => []
  | last, none :: rest => last :: ffillNL last rest
  | _, some v :: rest => some v :: ffillNL (some v) rest

/-- `spy = spy.asfreq("D").ffill()`: the benchmark close on every day from
its first to its last observation, weekends carrying the last close. -/
def spyDaily (spyRaw : List PriceRow) : List (Nat × Option ℚ) :=
  match spyRaw with
  | [] => []
  | p0 :: _ =>
    let s := p0.date
    let t := ((spyRaw.getLast?).map (fun p => p.date)).getD 0
    let dates := List.range' s (t - s + 1)
    dates.zip (ffillNL none (dates.map (fun d =>
      ((spyRaw.find? (fun p => p.date = d)).map (fun p => p.adj_close)))))

/-- `features.merge(spy, left_on="date", right_index=True, how="left")`. -/
def mergeSpy (spyD : List (Nat × Option ℚ)) (l : List FeatRow) : List FeatRow :=
  l.map (fun r => { r with spy_close := ((spyD.lookup r.date)).join })

/-- the label block of feature_build.py applied to the row at position `i`
of its ticker group `g`: `shift(-63)` forward values, `future_return`,
`spy_future_ret`, `excess_ret` with NaN propagation, and
`label_up = (excess_ret > 0).astype(int)` — pandas evaluates `NaN > 0` to
`False`, so a missing excess return yields the integer 0. -/
def mkLabeled (g : List FeatRow) (i : Nat) (r : FeatRow) : FeatRow :=
  let fwdAdj : Option ℚ := (g[i + HORIZON_DAYS]?).map (fun q => q.adj_close)
  let fwdSpy : Option ℚ := (g[i + HORIZON_DAYS]?).bind (fun q => q.spy_close)
  let fut : Option ℚ := fwdAdj.map (fun f => f / r.adj_close - 1)
  let sfut : Option ℚ :=
    match fwdSpy, r.spy_close with
    | some f, some s => some (f / s - 1)
    | _, _ => none
  let ex : Option ℚ :=
    match fut, sfut with
    | some a, some b => some (a - b)
    | _, _ => none
  { r with
    future_return := fut
    spy_future_ret := sfut
    excess_ret := ex
    label_up :=
      match ex with
      | some e => if 0 < e then 1 else 0
      | none => 0 }

def labelsGo (g : List FeatRow) : Nat → List FeatRow → List FeatRow
  | _, [] => []
  | i, r :: rest => mkLabeled g i r :: labelsGo g (i + 1) rest

/-- `groupby("ticker")` label construction on one ticker's block. -/
def addLabelsGroup (g : List FeatRow) : List FeatRow := labelsGo g 0 g

/-- the whole per-ticker pipeline in source order: merge → positive-equity
filter → ratios → rev_qoq → benchmark join → label.  (The source applies
the group-wise stages through `groupby("ticker")` on the concatenated
frame; the keys of `TICKER_CIK` are distinct, so the groups are exactly
the per-ticker blocks.) -/
def buildTickerBlock (tkr : String) (prices : List PriceRow)
    (fundRows : List WideRow) (shares : Option ℚ)
    (spyD : List (Nat × Option ℚ)) : List FeatRow :=
  addLabelsGroup (mergeSpy spyD (addRevQoq (addRatios
    (posEquityFilter (mergeRows tkr prices fundRows shares)))))

/-- one ticker's inputs: its price frame, its entity's wide fundamentals
(the rows of its cik in the silver table, sorted by `end`), and its
shares-outstanding entry (`none` for a missing / "NA" entry). -/
structure TickerInput where
  ticker : String
  prices : List PriceRow
  fundRows : List WideRow
  shares : Option ℚ
deriving DecidableEq

/-- the final `features` frame: concatenation of the per-ticker blocks. -/
def buildFeatures (inputs : List TickerInput) (spyD : List (Nat × Option ℚ)) :
    List FeatRow :=
  inputs.flatMap (fun t => buildTickerBlock t.ticker t.prices t.fundRows t.shares spyD)

/-! ## Sorting and deduplication lemmas -/

/-- sample restatement: same `(cik, fy, fp, concept)`, later `end` wins. -/
def exFactA : Fact := ⟨"320193", 10, 2021, "Q1", "equity", 5⟩

def exFactB : Fact := ⟨"320193", 20, 2021, "Q1", "equity", 6⟩

/-- a document populating two equity synonyms with conflicting values: the
first-listed synonym carries 100, a later one carries 999. -/
def exGaapConflict : GaapDict :=
  [ ("StockholdersEquity", ⟨[("USD", [⟨2021, "Q1", 10, 100⟩])]⟩),
    ("TotalEquityGross", ⟨[("USD", [⟨2021, "Q1", 10, 999⟩])]⟩) ]

def equityTags : List String :=
  [ "StockholdersEquity",
    "StockholdersEquityIncludingPortionAttributableToParent",
    "StockholdersEquityIncludingPortionAttributableToNoncontrollingInterest",
    "TotalEquityGross" ]

/-- the position and value of the last valid (non-NaN) observation at or
before position `i` of a raw column. -/
def prevValid (xs : List (Option ℚ)) : Nat → Option (Nat × ℚ)
  | 0 =>
    match xs[0]? with
    | some (some v) => some (0, v)
    | _ => none
  | i + 1 =>
    match xs[i + 1]? with
    | some (some v) => some (i + 1, v)
    | _ => prevValid xs i

/-- two wide rows 46 and 501 days after the epoch (`end` 1 and 456). -/
def exW1 : WideRow := ⟨"320193", 1, 2021, "Q1", [("equity", 7)]⟩

def exW2 : WideRow := ⟨"320193", 456, 2022, "Q1", [("equity", 9)]⟩

/-- two filings 456 days apart: info_dates 45 and 501. -/
def exS1 : WideRow := ⟨"320193", 0, 2021, "Q1", [("equity", 1)]⟩

def exS2 : WideRow := ⟨"320193", 456, 2022, "Q1", [("equity", 2)]⟩

/-- the row whose values `ffill` carries at date `d` in column `c`: the
last row (in frame order) with `info_date ≤ d` and a non-NaN cell in `c`. -/
def latestValidRow (rows : List WideRow) (c : String) (d : Nat) : Option WideRow :=
  (rows.filter (fun r => decide (infoDate r ≤ d) && (r.cols.lookup c).isSome)).getLast?

/-- specification of one `ffill(limit=L)` output cell in terms of the last
valid raw observation at or before it. -/
def ffillSpecAt (L : Nat) (last : Option ℚ) (gap : Nat) (xs : List (Option ℚ))
    (i : Nat) : Option ℚ :=
  match prevValid xs i with
  | some jv => if i - jv.1 ≤ L then some jv.2 else none
  | none => if gap + i < L then last else none

/-- the `ffill` fill predicate of one daily column, expressed on wide rows. -/
def validP (c : String) (d : Nat) (r : WideRow) : Bool :=
  decide (infoDate r ≤ d) && (r.cols.lookup c).isSome

/-- two wide rows with adjacent info_dates 45 and 46 (ends 0 and 1). -/
def exT1 : WideRow := ⟨"320193", 0, 2021, "Q1", [("equity", 3)]⟩

def exT2 : WideRow := ⟨"320193", 1, 2021, "Q2", [("equity", 4)]⟩

/-- a sample feature-table row (only `date`, `adj_close`, `equity` and
`spy_close` are significant). -/
def exFR : FeatRow :=
  ⟨50, 10, some 5, none, none, none, none, "AAPL", none, none, none, some 2,
    none, none, none, 0⟩

/-- a ticker whose whole price history lies within the last `HORIZON_DAYS`
positions: every row lacks a forward observation. -/
def exPrices : List PriceRow := [⟨45, 10⟩, ⟨46, 10⟩]

def exSpyRaw : List PriceRow := [⟨40, 5⟩, ⟨120, 5⟩]

def exInput : TickerInput := ⟨"AAPL", exPrices, [exT1, exT2], some 100⟩

/-- the first row of the concretely built feature table of `exInput`. -/
def exOutRow : FeatRow := (buildFeatures [exInput] (spyDaily exSpyRaw)).headD exFR

/-- a well-formed document yielding one `assets` fact. -/
def exGoodDoc : RawDoc :=
  ⟨some "1", some [("us-gaap", [("Assets", ⟨[("USD", [⟨2021, "FY", 10, 5⟩])]⟩)])]⟩

/-- a document missing the required top-level `cik` key. -/
def exBadDoc : RawDoc := ⟨none, some []⟩

def exGoodDoc2 : RawDoc :=
  ⟨some "2", some [("us-gaap", [("Assets", ⟨[("USD", [⟨2021, "FY", 11, 6⟩])]⟩)])]⟩

/-- a Q4 row and an FY row ending on the same day. -/
def exD1 : WideRow := ⟨"1", 100, 2021, "Q4", [("equity", 1)]⟩

def exD2 : WideRow := ⟨"1", 100, 2021, "FY", [("assets", 2)]⟩

theorem insertK_perm {α : Type} (key : α → Nat) (x : α) (l : List α) :
    List.Perm (insertK key x l) (x :: l) := by
  induction l with
  | nil => exact List.Perm.refl _
  | cons y rest ih =>
    unfold insertK
    by_cases h : key x ≤ key y
    · simp [h]
    · simp only [h, if_false]
      exact (ih.cons y).trans (List.Perm.swap x y rest)

theorem sortK_perm {α : Type} (key : α → Nat) (l : List α) :
    List.Perm (sortK key l) l := by
  induction l with
  | nil => exact List.Perm.refl _
  | cons x rest ih =>
    unfold sortK
    exact (insertK_perm key x (sortK key rest)).trans (ih.cons x)

theorem insertK_pairwise {α : Type} (key : α → Nat) (x : α) (l : List α)
    (h : l.Pairwise (fun a b => key a ≤ key b)) :
    (insertK key x l).Pairwise (fun a b => key a ≤ key b) := by
  induction l with
  | nil => simp [insertK]
  | cons y rest ih =>
    rw [List.pairwise_cons] at h
    unfold insertK
    by_cases hxy : key x ≤ key y
    · simp only [hxy, if_true]
      rw [List.pairwise_cons]
      refine ⟨?_, List.pairwise_cons.mpr h⟩
      intro z hz
      rcases List.mem_cons.mp hz with hz | hz
      · exact hz ▸ hxy
      · exact le_trans hxy (h.1 z hz)
    · simp only [hxy, if_false]
      rw [List.pairwise_cons]
      refine ⟨?_, ih h.2⟩
      intro z hz
      rcases List.mem_cons.mp (((insertK_perm key x rest).mem_iff).mp hz) with hz | hz
      · subst hz; exact Nat.le_of_not_le hxy
      · exact h.1 z hz

theorem sortK_pairwise {α : Type} (key : α → Nat) (l : List α) :
    (sortK key l).Pairwise (fun a b => key a ≤ key b) := by
  induction l with
  | nil => simp [sortK]
  | cons x rest ih => exact insertK_pairwise key x _ ih

theorem dropDupLast_sublist (l : List Fact) : List.Sublist (dropDupLast l) l := by
  induction l with
  | nil => exact List.Sublist.refl _
  | cons f rest ih =>
    unfold dropDupLast
    by_cases h : (rest.any (fun g => dedupKey g = dedupKey f)) = true
    · rw [if_pos h]
      exact ih.cons f
    · rw [if_neg h]
      exact ih.cons₂ f

theorem dropDupLast_keys (l : List Fact) :
    (dropDupLast l).Pairwise (fun a b => dedupKey a ≠ dedupKey b) := by
  induction l with
  | nil => simp [dropDupLast]
  | cons f rest ih =>
    unfold dropDupLast
    by_cases h : (rest.any (fun g => dedupKey g = dedupKey f)) = true
    · rw [if_pos h]; exact ih
    · rw [if_neg h]
      rw [List.pairwise_cons]
      refine ⟨?_, ih⟩
      intro b hb hkey
      have hb' : b ∈ rest := (dropDupLast_sublist rest).subset hb
      have : rest.any (fun g => dedupKey g = dedupKey f) = true := by
        rw [List.any_eq_true]
        exact ⟨b, hb', by simp [hkey]⟩
      simp [this] at h

theorem dropDupLast_latest (l : List Fact)
    (hs : l.Pairwise (fun a b => a.endDate ≤ b.endDate))
    (f g : Fact) (hf : f ∈ dropDupLast l) (hg : g ∈ l)
    (hkey : dedupKey g = dedupKey f) : g.endDate ≤ f.endDate := by
  induction l with
  | nil => simp at hg
  | cons x rest ih =>
    rw [List.pairwise_cons] at hs
    unfold dropDupLast at hf
    by_cases h : (rest.any (fun g => dedupKey g = dedupKey x)) = true
    · rw [if_pos h] at hf
      rcases List.mem_cons.mp hg with hg | hg
      · have hfr : f ∈ rest := (dropDupLast_sublist rest).subset hf
        exact hg ▸ hs.1 f hfr
      · exact ih hs.2 hf hg
    · rw [if_neg h] at hf
      rcases List.mem_cons.mp hf with hf | hf
      · subst hf
        rcases List.mem_cons.mp hg with hg | hg
        · exact hg ▸ le_refl _
        · exfalso
          have : rest.any (fun g' => dedupKey g' = dedupKey f) = true := by
            rw [List.any_eq_true]
            exact ⟨g, hg, by simp [hkey]⟩
          simp [this] at h
      · rcases List.mem_cons.mp hg with hg | hg
        · have hfr : f ∈ rest := (dropDupLast_sublist rest).subset hf
          exact hg ▸ hs.1 f hfr
        · exact ih hs.2 hf hg

/-- C4: after deduplication no two retained facts share
`(cik, fy, fp, concept)`, every retained fact comes from the input, and a
retained fact's `period_end_date` is the latest among all input facts with
its key (restatement wins). -/
theorem C4_dedup_unique_latest (l : List Fact) (f g : Fact)
    (hf : f ∈ dedupFacts l) (hg : g ∈ l) (hkey : dedupKey g = dedupKey f) :
    g.endDate ≤ f.endDate ∧ f ∈ l ∧
      (dedupFacts l).Pairwise (fun a b => dedupKey a ≠ dedupKey b) := by
  have hperm := sortK_perm (fun f => f.endDate) l
  have hsorted := sortK_pairwise (fun f => f.endDate) l
  refine ⟨?_, ?_, dropDupLast_keys _⟩
  · exact dropDupLast_latest _ hsorted f g hf (hperm.mem_iff.mpr hg) hkey
  · exact hperm.mem_iff.mp ((dropDupLast_sublist _).subset hf)

theorem C4_dedup_unique_latest_witness :
    exFactA.endDate ≤ exFactB.endDate ∧ exFactB ∈ [exFactA, exFactB] ∧
      (dedupFacts [exFactA, exFactB]).Pairwise (fun a b => dedupKey a ≠ dedupKey b) :=
  C4_dedup_unique_latest [exFactA, exFactB] exFactB exFactA
    (by decide) (by decide) (by decide)

/-! ## Synonym precedence (C5) -/

theorem mkConceptFacts_concept (cik c : String) (s : Option (List ObsRec))
    (f : Fact) (hf : f ∈ mkConceptFacts cik c s) : f.concept = c := by
  match s with
  | none => simp [mkConceptFacts] at hf
  | some series =>
    simp only [mkConceptFacts, List.mem_filterMap] at hf
    obtain ⟨rec, _, hrec⟩ := hf
    by_cases hk : rec.fp ∈ KEEP_PERIODS
    · rw [if_pos hk] at hrec
      cases hrec
      rfl
    · rw [if_neg hk] at hrec
      cases hrec

theorem extractRowsOver_concept (tm : List (String × List String))
    (cik : String) (g : GaapDict) (f : Fact) (hf : f ∈ extractRowsOver tm cik g) :
    ∃ ct ∈ tm, f.concept = ct.1 := by
  simp only [extractRowsOver, List.mem_flatMap] at hf
  obtain ⟨ct, hct, hf⟩ := hf
  exact ⟨ct, hct, mkConceptFacts_concept cik ct.1 _ f hf⟩

theorem first_numeric_series_eq_find (g : GaapDict) (tags : List String)
    (unit : String) :
    first_numeric_series g tags unit
      = (tags.find? (fun t => !(lookupSeries g t unit).isEmpty)).map
          (fun t => lookupSeries g t unit) := by
  induction tags with
  | nil => rfl
  | cons t rest ih =>
    unfold first_numeric_series
    by_cases h : (lookupSeries g t unit).isEmpty = true
    · rw [if_pos h, ih, List.find?_cons_of_neg]
      simp [h]
    · rw [if_neg h, List.find?_cons_of_pos]
      · rfl
      · simp [h]

theorem extractRowsOver_filter (tm : List (String × List String))
    (cik : String) (g : GaapDict) (col : String) (tags : List String)
    (hnd : tm.Pairwise (fun a b => a.1 ≠ b.1)) (hmem : (col, tags) ∈ tm) :
    (extractRowsOver tm cik g).filter (fun f => f.concept = col)
      = mkConceptFacts cik col (first_numeric_series g tags "USD") := by
  induction tm with
  | nil => simp at hmem
  | cons ct rest ih =>
    rw [List.pairwise_cons] at hnd
    have hsplit : extractRowsOver (ct :: rest) cik g
        = mkConceptFacts cik ct.1 (first_numeric_series g ct.2 "USD")
            ++ extractRowsOver rest cik g := by
      simp [extractRowsOver]
    rw [hsplit, List.filter_append]
    rcases List.mem_cons.mp hmem with hmem | hmem
    · have hct : ct = (col, tags) := hmem.symm
      subst hct
      have h1 : (mkConceptFacts cik col (first_numeric_series g tags "USD")).filter
          (fun f => f.concept = col)
          = mkConceptFacts cik col (first_numeric_series g tags "USD") := by
        apply List.filter_eq_self.mpr
        intro f hf
        simp [mkConceptFacts_concept cik col _ f hf]
      have h2 : (extractRowsOver rest cik g).filter (fun f => f.concept = col) = [] := by
        apply List.filter_eq_nil.mpr
        intro f hf
        obtain ⟨ct', hct', hc⟩ := extractRowsOver_concept rest cik g f hf
        have : col ≠ ct'.1 := hnd.1 ct' hct'
        simp only [hc, decide_eq_true_eq]
        exact Ne.symm this
      rw [h1, h2, List.append_nil]
    · have hne : ct.1 ≠ col := by
        have : ct.1 ≠ (col, tags).1 := hnd.1 (col, tags) hmem
        exact this
      have h1 : (mkConceptFacts cik ct.1 (first_numeric_series g ct.2 "USD")).filter
          (fun f => f.concept = col) = [] := by
        apply List.filter_eq_nil.mpr
        intro f hf
        have := mkConceptFacts_concept cik ct.1 _ f hf
        simp [this, hne]
      rw [h1, List.nil_append]
      exact ih hnd.2 hmem

/-- C5: for every document and every canonical concept of `TAG_MAP`, the
synonym scan returns exactly the series of the first synonym with a
non-empty observation list under the target unit, and the extracted facts
of that concept are exactly the qualifying observations of that series —
observations under later synonyms never contribute. -/
theorem C5_synonym_precedence (g : GaapDict) (cik col : String)
    (tags : List String) (hmem : (col, tags) ∈ TAG_MAP) :
    first_numeric_series g tags "USD"
        = (tags.find? (fun t => !(lookupSeries g t "USD").isEmpty)).map
            (fun t => lookupSeries g t "USD") ∧
    (extractRows cik g).filter (fun f => f.concept = col)
        = mkConceptFacts cik col (first_numeric_series g tags "USD") := by
  constructor
  · exact first_numeric_series_eq_find g tags "USD"
  · exact extractRowsOver_filter TAG_MAP cik g col tags (by decide) hmem

theorem C5_synonym_precedence_witness :
    first_numeric_series exGaapConflict equityTags "USD"
        = (equityTags.find? (fun t => !(lookupSeries exGaapConflict t "USD").isEmpty)).map
            (fun t => lookupSeries exGaapConflict t "USD") ∧
    (extractRows "320193" exGaapConflict).filter (fun f => f.concept = "equity")
        = mkConceptFacts "320193" "equity"
            (first_numeric_series exGaapConflict equityTags "USD") :=
  C5_synonym_precedence exGaapConflict "320193" "equity" equityTags (by decide)

/-! ## Forward-fill provenance (C1, C3) -/

theorem ffillGo_provenance (L : Nat) (xs : List (Option ℚ)) :
    ∀ (last : Option ℚ) (gap i : Nat) (v : ℚ),
      (ffillGo L last gap xs)[i]? = some (some v) →
      (∃ j, j ≤ i ∧ i - j ≤ L ∧ xs[j]? = some (some v)) ∨
        (last = some v ∧ gap + i < L ∧ ∀ j ≤ i, xs[j]? = some none) := by
  induction xs with
  | nil => intro last gap i v h; simp [ffillGo] at h
  | cons x rest ih =>
    intro last gap i v h
    match x with
    | none =>
      match i with
      | 0 =>
        simp only [ffillGo, List.getElem?_cons_zero, Option.some.injEq] at h
        by_cases hg : gap < L
        · rw [if_pos hg] at h
          refine Or.inr ⟨h, by omega, ?_⟩
          intro j hj
          interval_cases j
          simp
        · rw [if_neg hg] at h
          exact absurd h (by simp)
      | i + 1 =>
        simp only [ffillGo, List.getElem?_cons_succ] at h
        rcases ih last (gap + 1) i v h with ⟨j, hj, hjL, hxs⟩ | ⟨hlast, hgap, hall⟩
        · exact Or.inl ⟨j + 1, by omega, by omega, by simpa using hxs⟩
        · refine Or.inr ⟨hlast, by omega, ?_⟩
          intro j hj
          match j with
          | 0 => simp
          | j + 1 => simpa using hall j (by omega)
    | some w =>
      match i with
      | 0 =>
        simp only [ffillGo, List.getElem?_cons_zero, Option.some.injEq] at h
        exact Or.inl ⟨0, le_refl 0, by omega, by simp [h]⟩
      | i + 1 =>
        simp only [ffillGo, List.getElem?_cons_succ] at h
        rcases ih (some w) 0 i v h with ⟨j, hj, hjL, hxs⟩ | ⟨hlast, hgap, hall⟩
        · exact Or.inl ⟨j + 1, by omega, by omega, by simpa using hxs⟩
        · refine Or.inl ⟨0, by omega, by omega, ?_⟩
          have hw : w = v := by injection hlast
          simp [hw]

theorem range'_getElem?_some (s n i d : Nat)
    (h : (List.range' s n)[i]? = some d) : d = s + i ∧ i < n := by
  have hi : i < n := by
    by_contra hni
    have hnone : (List.range' s n)[i]? = none := by
      apply List.getElem?_eq_none
      rw [List.length_range']
      omega
    rw [hnone] at h
    cases h
  have heq := List.getElem?_range' s 1 hi
  rw [heq] at h
  injection h with h
  omega

theorem mem_zip_exists_idx {α β : Type} :
    ∀ (l1 : List α) (l2 : List β) (p : α × β), p ∈ l1.zip l2 →
      ∃ i : Nat, l1[i]? = some p.1 ∧ l2[i]? = some p.2 := by
  intro l1
  induction l1 with
  | nil => intro l2 p h; simp [List.zip] at h
  | cons a t1 ih =>
    intro l2 p h
    match l2 with
    | [] => simp [List.zip] at h
    | b :: t2 =>
      rcases List.mem_cons.mp h with h | h
      · exact ⟨0, by simp [h]⟩
      · obtain ⟨i, h1, h2⟩ := ih t2 p h
        exact ⟨i + 1, by simpa using h1, by simpa using h2⟩

/-- every present cell of the aligned daily column originates in a row of
the wide table whose `info_date` is at most the cell's date and at most
`L` days before it. -/
theorem dailyCol_provenance (rows : List WideRow) (L : Nat) (c : String)
    (d : Nat) (v : ℚ) (h : (d, some v) ∈ dailyCol rows L c) :
    ∃ r ∈ rows, r.cols.lookup c = some v ∧ infoDate r ≤ d ∧ d ≤ infoDate r + L := by
  match rows with
  | [] => simp [dailyCol, dailyDates, List.zip] at h
  | r0 :: rest =>
    obtain ⟨i, hdi, hci⟩ := mem_zip_exists_idx _ _ _ h
    have hdd : dailyDates (r0 :: rest)
        = List.range' (startDate (r0 :: rest))
            (stopDate (r0 :: rest) - startDate (r0 :: rest) + 1) := rfl
    rcases ffillGo_provenance L _ none 0 i v hci with ⟨j, hj, hjL, hxs⟩ | ⟨hlast, _, _⟩
    · rw [List.getElem?_map] at hxs
      match hdj : (dailyDates (r0 :: rest))[j]? with
      | none => rw [hdj] at hxs; simp at hxs
      | some dj =>
        rw [hdj] at hxs
        simp only [Option.map_some', Option.some.injEq] at hxs
        match hfind : (r0 :: rest).find? (fun r => infoDate r = dj) with
        | none => simp [asfreqCell, hfind] at hxs
        | some r =>
          have hr : r ∈ r0 :: rest := List.mem_of_find?_eq_some hfind
          have hrd : infoDate r = dj := by
            have := List.find?_some hfind
            simpa using this
          have hval : r.cols.lookup c = some v := by
            simpa [asfreqCell, hfind] using hxs
          rw [hdd] at hdj hdi
          obtain ⟨hdj', _⟩ := range'_getElem?_some _ _ _ _ hdj
          obtain ⟨hdi', _⟩ := range'_getElem?_some _ _ _ _ hdi
          exact ⟨r, hr, hval, by omega, by omega⟩
    · simp at hlast

/-- C1 (no-leakage): every present value of the aligned daily fundamentals
column comes from a wide row whose `period_end_date + LAG_DAYS` is at most
the calendar date carrying it, and every calendar date of the daily frame
is on or after some row's `info_date` (so dates before the entity's first
`info_date` do not occur in the frame at all). -/
theorem C1_no_leakage (rows : List WideRow) (c : String) :
    (∀ d v, (d, some v) ∈ dailyCol rows MAX_FF_DAYS c →
      ∃ r ∈ rows, r.cols.lookup c = some v ∧ r.endDate + INFO_LAG_DAYS ≤ d) ∧
    (∀ p ∈ dailyCol rows MAX_FF_DAYS c, ∃ r ∈ rows, infoDate r ≤ p.1) := by
  constructor
  · intro d v h
    obtain ⟨r, hr, hval, hle, _⟩ := dailyCol_provenance rows MAX_FF_DAYS c d v h
    exact ⟨r, hr, hval, hle⟩
  · intro p hp
    match rows with
    | [] => simp [dailyCol, dailyDates, List.zip] at hp
    | r0 :: rest =>
      refine ⟨r0, List.mem_cons_self r0 rest, ?_⟩
      obtain ⟨i, hdi, _⟩ := mem_zip_exists_idx _ _ _ hp
      have hdd : dailyDates (r0 :: rest)
          = List.range' (startDate (r0 :: rest))
              (stopDate (r0 :: rest) - startDate (r0 :: rest) + 1) := rfl
      rw [hdd] at hdi
      obtain ⟨hdi', _⟩ := range'_getElem?_some _ _ _ _ hdi
      have hs : startDate (r0 :: rest) = infoDate r0 := rfl
      omega

theorem C1_no_leakage_witness :
    ∃ r ∈ [exW1, exW2], r.cols.lookup "equity" = some 7 ∧
      r.endDate + INFO_LAG_DAYS ≤ 46 :=
  (C1_no_leakage [exW1, exW2] "equity").1 46 7 (by decide)

/-! ## Forward-fill bound (C3) -/

/-- C3 counterexample: with `ffill(limit=400)` a value occupies its own
info_date row plus 400 filled rows, i.e. 401 consecutive daily rows — the
first 401 cells of this aligned equity column all carry the value 1, so a
fundamentals value does appear unchanged on more than `MAX_FF_DAYS = 400`
consecutive daily rows. -/
theorem C3_ff_bound_counterexample :
    ((alignCol [exS1, exS2] MAX_FF_DAYS "equity").take 401
        = List.replicate 401 (some (1 : ℚ))) ∧
    (alignCol [exS1, exS2] MAX_FF_DAYS "equity").length = 457 ∧
    MAX_FF_DAYS < 401 := by
  refine ⟨?_, ?_, ?_⟩
  · set_option maxRecDepth 10000 in decide
  · set_option maxRecDepth 10000 in decide
  · decide

/-- C3 amended: a daily cell's value always lies within `MAX_FF_DAYS` days
after the `info_date` of the filing it came from, so a single filing's
value spans at most `MAX_FF_DAYS + 1` (not `MAX_FF_DAYS`) consecutive
daily rows. -/
theorem C3_ff_bound_amended (rows : List WideRow) (c : String) (d : Nat)
    (v : ℚ) (h : (d, some v) ∈ dailyCol rows MAX_FF_DAYS c) :
    ∃ r ∈ rows, r.cols.lookup c = some v ∧ infoDate r ≤ d ∧
      d ≤ infoDate r + MAX_FF_DAYS :=
  dailyCol_provenance rows MAX_FF_DAYS c d v h

theorem C3_ff_bound_amended_witness :
    ∃ r ∈ [exW1, exW2], r.cols.lookup "equity" = some 7 ∧ infoDate r ≤ 46 ∧
      46 ≤ infoDate r + MAX_FF_DAYS :=
  C3_ff_bound_amended [exW1, exW2] "equity" 46 7 (by decide)

/-! ## Forward-fill window characterization (C2) -/

theorem prevValid_cons (x : Option ℚ) (xs : List (Option ℚ)) (i : Nat) :
    prevValid (x :: xs) (i + 1)
      = match prevValid xs i with
        | some jv => some (jv.1 + 1, jv.2)
        | none =>
          match x with
          | some v => some (0, v)
          | none => none := by
  induction i with
  | zero =>
    simp only [prevValid, List.getElem?_cons_succ, List.getElem?_cons_zero]
    match hx : xs[0]? with
    | none => cases x <;> rfl
    | some none => cases x <;> rfl
    | some (some v) => rfl
  | succ i ih =>
    simp only [prevValid, List.getElem?_cons_succ] at ih ⊢
    match hx : xs[i + 1]? with
    | none => exact ih
    | some none => exact ih
    | some (some v) => rfl

theorem ffillGo_char (L : Nat) :
    ∀ (xs : List (Option ℚ)) (last : Option ℚ) (gap i : Nat), i < xs.length →
      (ffillGo L last gap xs)[i]? = some (ffillSpecAt L last gap xs i) := by
  intro xs
  induction xs with
  | nil => intro last gap i hi; simp at hi
  | cons x rest ih =>
    intro last gap i hi
    match x, i with
    | none, 0 =>
      simp only [ffillGo, List.getElem?_cons_zero, ffillSpecAt, prevValid,
        List.getElem?_cons_zero]
      rfl
    | some w, 0 =>
      simp only [ffillGo, List.getElem?_cons_zero, ffillSpecAt, prevValid,
        List.getElem?_cons_zero]
      simp
    | none, i + 1 =>
      have hi' : i < rest.length := by simpa using hi
      simp only [ffillGo, List.getElem?_cons_succ]
      rw [ih last (gap + 1) i hi']
      simp only [ffillSpecAt, prevValid_cons]
      match hp : prevValid rest i with
      | some jv =>
        have : i + 1 - (jv.1 + 1) = i - jv.1 := by omega
        simp [this]
      | none =>
        have : gap + 1 + i = gap + (i + 1) := by omega
        simp [this]
    | some w, i + 1 =>
      have hi' : i < rest.length := by simpa using hi
      simp only [ffillGo, List.getElem?_cons_succ]
      rw [ih (some w) 0 i hi']
      simp only [ffillSpecAt, prevValid_cons]
      match hp : prevValid rest i with
      | some jv =>
        have : i + 1 - (jv.1 + 1) = i - jv.1 := by omega
        simp [this]
      | none =>
        simp only [Nat.zero_add, Nat.sub_zero]
        by_cases hL : i < L
        · rw [if_pos hL, if_pos (by omega : i + 1 ≤ L)]
        · rw [if_neg hL, if_neg (by omega : ¬ i + 1 ≤ L)]

theorem info_inj_of_sorted :
    ∀ (l : List WideRow), l.Pairwise (fun a b => infoDate a < infoDate b) →
      ∀ x ∈ l, ∀ y ∈ l, infoDate x = infoDate y → x = y := by
  intro l
  induction l with
  | nil => intro _ x hx; simp at hx
  | cons z t ih =>
    intro hl x hx y hy hxy
    rw [List.pairwise_cons] at hl
    rcases List.mem_cons.mp hx with hx1 | hx1 <;> rcases List.mem_cons.mp hy with hy1 | hy1
    · rw [hx1, hy1]
    · exfalso
      have := hl.1 y hy1
      rw [hx1] at hxy
      omega
    · exfalso
      have := hl.1 x hx1
      rw [hy1] at hxy
      omega
    · exact ih hl.2 x hx1 y hy1 hxy

theorem getLast?_filter_of_sorted :
    ∀ (l : List WideRow) (p : WideRow → Bool) (r : WideRow),
      l.Pairwise (fun a b => infoDate a < infoDate b) → r ∈ l → p r = true →
      (∀ x ∈ l, p x = true → infoDate x ≤ infoDate r) →
      (l.filter p).getLast? = some r := by
  intro l
  induction l with
  | nil => intro p r _ hr; simp at hr
  | cons y t ih =>
    intro p r hs hr hpr hmax
    rw [List.pairwise_cons] at hs
    rcases List.mem_cons.mp hr with hr | hr
    · subst hr
      have hft : t.filter p = [] := by
        apply List.filter_eq_nil_iff.mpr
        intro x hx hpx
        have h1 := hmax x (List.mem_cons_of_mem _ hx) hpx
        have h2 := hs.1 x hx
        omega
      rw [List.filter_cons_of_pos hpr, hft]
      simp
    · have htail := ih p r hs.2 hr hpr
        (fun x hx hpx => hmax x (List.mem_cons_of_mem _ hx) hpx)
      have hne : t.filter p ≠ [] := by
        intro h0
        rw [h0] at htail
        cases htail
      by_cases hpy : p y = true
      · rw [List.filter_cons_of_pos hpy]
        obtain ⟨z, l', hzl⟩ := List.exists_cons_of_ne_nil hne
        rw [hzl] at htail ⊢
        rw [List.getLast?_cons_cons]
        exact htail
      · rw [List.filter_cons_of_neg (by simpa using hpy)]
        exact htail

theorem latestValidRow_eq_filter (rows : List WideRow) (c : String) (d : Nat) :
    latestValidRow rows c d = (rows.filter (validP c d)).getLast? := rfl

theorem prevValid_eq_latest (rows : List WideRow) (c : String)
    (hs : rows.Pairwise (fun a b => infoDate a < infoDate b)) :
    ∀ i, i < (dailyDates rows).length →
      prevValid ((dailyDates rows).map (fun d => asfreqCell rows d c)) i
        = (latestValidRow rows c (startDate rows + i)).bind
            (fun r => (r.cols.lookup c).map
              (fun v => (infoDate r - startDate rows, v))) := by
  match rows with
  | [] => intro i hi; simp [dailyDates] at hi
  | r0 :: rest =>
    have hdd : dailyDates (r0 :: rest)
        = List.range' (startDate (r0 :: rest))
            (stopDate (r0 :: rest) - startDate (r0 :: rest) + 1) := rfl
    have hxs : ∀ j, j < (dailyDates (r0 :: rest)).length →
        ((dailyDates (r0 :: rest)).map (fun d => asfreqCell (r0 :: rest) d c))[j]?
          = some (asfreqCell (r0 :: rest) (startDate (r0 :: rest) + j) c) := by
      intro j hj
      rw [List.getElem?_map, hdd, List.getElem?_range']
      · simp
      · rw [hdd, List.length_range'] at hj
        exact hj
    have hs' : ∀ x ∈ rest, infoDate r0 < infoDate x :=
      (List.pairwise_cons.mp hs).1
    have hstart : startDate (r0 :: rest) = infoDate r0 := rfl
    intro i
    induction i with
    | zero =>
      intro hi
      simp only [prevValid]
      rw [hxs 0 hi, Nat.add_zero]
      have hfind : (r0 :: rest).find?
          (fun r => decide (infoDate r = startDate (r0 :: rest))) = some r0 := by
        apply List.find?_cons_of_pos
        simp [hstart]
      have hasf : asfreqCell (r0 :: rest) (startDate (r0 :: rest)) c
          = r0.cols.lookup c := by
        simp only [asfreqCell, hfind]
      rw [hasf]
      have hfr : rest.filter (validP c (startDate (r0 :: rest))) = [] := by
        apply List.filter_eq_nil_iff.mpr
        intro x hx hpx
        simp only [validP, Bool.and_eq_true, decide_eq_true_eq] at hpx
        have := hs' x hx
        rw [hstart] at hpx
        omega
      match hc : r0.cols.lookup c with
      | some v =>
        have hp0 : validP c (startDate (r0 :: rest)) r0 = true := by
          simp [validP, hstart, hc]
        rw [latestValidRow_eq_filter, List.filter_cons_of_pos hp0, hfr]
        simp [hc, hstart]
      | none =>
        have hp0 : ¬ validP c (startDate (r0 :: rest)) r0 = true := by
          simp [validP, hstart, hc]
        rw [latestValidRow_eq_filter, List.filter_cons_of_neg (by simpa using hp0), hfr]
        rfl
    | succ i ih =>
      intro hi
      have hi' : i < (dailyDates (r0 :: rest)).length := by omega
      have hcongr : ∀ (hno : ∀ x ∈ r0 :: rest,
            ¬ (infoDate x = startDate (r0 :: rest) + (i + 1)) ∨
              (x.cols.lookup c) = none),
          latestValidRow (r0 :: rest) c (startDate (r0 :: rest) + (i + 1))
            = latestValidRow (r0 :: rest) c (startDate (r0 :: rest) + i) := by
        intro hno
        rw [latestValidRow_eq_filter, latestValidRow_eq_filter]
        have : (r0 :: rest).filter (validP c (startDate (r0 :: rest) + (i + 1)))
            = (r0 :: rest).filter (validP c (startDate (r0 :: rest) + i)) := by
          apply List.filter_congr
          intro x hx
          rcases hno x hx with hnx | hnx
          · simp only [validP]
            have hiff : (infoDate x ≤ startDate (r0 :: rest) + (i + 1))
                ↔ (infoDate x ≤ startDate (r0 :: rest) + i) := by omega
            rw [decide_eq_decide.mpr hiff]
          · simp [validP, hnx]
        rw [this]
      simp only [prevValid]
      rw [hxs (i + 1) hi]
      match hfind : (r0 :: rest).find?
          (fun r => decide (infoDate r = startDate (r0 :: rest) + (i + 1))) with
      | some r =>
        have hr : r ∈ r0 :: rest := List.mem_of_find?_eq_some hfind
        have hrd : infoDate r = startDate (r0 :: rest) + (i + 1) := by
          have := List.find?_some hfind
          simpa using this
        match hc : r.cols.lookup c with
        | some v =>
          have hasf : asfreqCell (r0 :: rest) (startDate (r0 :: rest) + (i + 1)) c
              = some v := by
            simp only [asfreqCell, hfind, hc]
          have hlast : latestValidRow (r0 :: rest) c
              (startDate (r0 :: rest) + (i + 1)) = some r := by
            rw [latestValidRow_eq_filter]
            apply getLast?_filter_of_sorted (r0 :: rest) _ r hs hr
            · simp [validP, hrd, hc]
            · intro x hx hpx
              simp only [validP, Bool.and_eq_true, decide_eq_true_eq] at hpx
              omega
          rw [hasf, hlast]
          have hsub : infoDate r - startDate (r0 :: rest) = i + 1 := by omega
          show some (i + 1, v) = _
          simp [hc, hsub]
        | none =>
          have hasf : asfreqCell (r0 :: rest) (startDate (r0 :: rest) + (i + 1)) c
              = none := by
            simp only [asfreqCell, hfind, hc]
          rw [hasf]
          show prevValid
              ((dailyDates (r0 :: rest)).map (fun d => asfreqCell (r0 :: rest) d c)) i
            = _
          rw [hcongr ?side]
          case side =>
            intro x hx
            by_cases hxd : infoDate x = startDate (r0 :: rest) + (i + 1)
            · right
              have : x = r := info_inj_of_sorted (r0 :: rest) hs x hx r hr
                (by rw [hxd, hrd])
              rw [this, hc]
            · exact Or.inl hxd
          exact ih hi'
      | none =>
        have hno := List.find?_eq_none.mp hfind
        have hasf : asfreqCell (r0 :: rest) (startDate (r0 :: rest) + (i + 1)) c
            = none := by
          simp only [asfreqCell, hfind]
        rw [hasf]
        show prevValid
            ((dailyDates (r0 :: rest)).map (fun d => asfreqCell (r0 :: rest) d c)) i
          = _
        rw [hcongr ?side2]
        case side2 =>
          intro x hx
          left
          have := hno x hx
          simpa using this
        exact ih hi'

theorem mem_of_getLast?' {α : Type} :
    ∀ {l : List α} {a : α}, l.getLast? = some a → a ∈ l := by
  intro l
  induction l with
  | nil => intro a h; cases h
  | cons x t ih =>
    intro a h
    match t with
    | [] =>
      have : x = a := by
        have : some x = some a := h
        injection this
      exact this ▸ List.mem_cons_self x []
    | y :: t' =>
      rw [List.getLast?_cons_cons] at h
      exact List.mem_cons_of_mem x (ih h)

/-- C2 counterexample: the daily calendar produced by `asfreq("D")` ends at
the last row's `info_date`, so the chronologically last filing is not held
at all — its value appears on exactly one daily row (here date 46), and
date 47 does not occur in the frame even though no next filing and no
`MAX_FF_DAYS` expiry cut the fill off. -/
theorem C2_forward_fill_counterexample :
    dailyDates [exT1, exT2] = [45, 46] ∧
    alignCol [exT1, exT2] MAX_FF_DAYS "equity" = [some 3, some 4] ∧
    (dailyCol [exT1, exT2] MAX_FF_DAYS "equity").lookup 47 = none := by
  refine ⟨by decide, by decide, by decide⟩

/-- C2 amended: on the daily calendar — which runs only from the first to
the last `info_date`, so the last filing occupies a single row — each cell
of column `c` carries the value of the last row at or before its date with
a present cell in `c`, provided that row's `info_date` is at most
`MAX_FF_DAYS` days back, and is NaN otherwise; in particular a later row
with a present cell in `c` always overrides a still-active fill in that
column. -/
theorem C2_forward_fill_amended (rows : List WideRow) (c : String) (i d : Nat)
    (hs : rows.Pairwise (fun a b => infoDate a < infoDate b))
    (hd : (dailyDates rows)[i]? = some d) :
    (alignCol rows MAX_FF_DAYS c)[i]?
        = some (match latestValidRow rows c d with
            | some r =>
              if d ≤ infoDate r + MAX_FF_DAYS then r.cols.lookup c else none
            | none => none) ∧
    startDate rows ≤ d ∧ d ≤ stopDate rows := by
  match rows with
  | [] => simp [dailyDates] at hd
  | r0 :: rest =>
    have hdd : dailyDates (r0 :: rest)
        = List.range' (startDate (r0 :: rest))
            (stopDate (r0 :: rest) - startDate (r0 :: rest) + 1) := rfl
    rw [hdd] at hd
    obtain ⟨hdi, hin⟩ := range'_getElem?_some _ _ _ _ hd
    have hlen : (dailyDates (r0 :: rest)).length
        = stopDate (r0 :: rest) - startDate (r0 :: rest) + 1 := by
      rw [hdd, List.length_range']
    have hi : i < (dailyDates (r0 :: rest)).length := by omega
    have hstart : startDate (r0 :: rest) = infoDate r0 := rfl
    have hmono : ∀ x ∈ r0 :: rest, startDate (r0 :: rest) ≤ infoDate x := by
      intro x hx
      rcases List.mem_cons.mp hx with hx | hx
      · rw [hx, hstart]
      · have := (List.pairwise_cons.mp hs).1 x hx
        rw [hstart]
        omega
    have hstop : startDate (r0 :: rest) ≤ stopDate (r0 :: rest) := by
      match hgl : (r0 :: rest).getLast? with
      | none => exact absurd (List.getLast?_eq_none_iff.mp hgl) (by simp)
      | some rl =>
        have : stopDate (r0 :: rest) = infoDate rl := by
          simp [stopDate, hgl]
        rw [this]
        exact hmono rl (mem_of_getLast?' hgl)
    refine ⟨?_, by omega, by omega⟩
    have hxlen : ((dailyDates (r0 :: rest)).map
        (fun d => asfreqCell (r0 :: rest) d c)).length
        = (dailyDates (r0 :: rest)).length := List.length_map _ _
    have hchar := ffillGo_char MAX_FF_DAYS
      ((dailyDates (r0 :: rest)).map (fun d => asfreqCell (r0 :: rest) d c))
      none 0 i (by omega)
    have hbridge := prevValid_eq_latest (r0 :: rest) c hs i hi
    show (ffillGo MAX_FF_DAYS none 0 _)[i]? = _
    rw [hchar]
    unfold ffillSpecAt
    rw [hbridge]
    subst hdi
    match hlv : latestValidRow (r0 :: rest) c (startDate (r0 :: rest) + i) with
    | none => simp
    | some r =>
      have hrf := mem_of_getLast?' hlv
      obtain ⟨hrmem, hrp⟩ := List.mem_filter.mp hrf
      simp only [validP, Bool.and_eq_true, decide_eq_true_eq, Option.isSome_iff_exists]
        at hrp
      obtain ⟨hrle, v, hv⟩ := hrp
      have hrs : startDate (r0 :: rest) ≤ infoDate r := hmono r hrmem
      simp only [Option.some_bind, hv, Option.map_some']
      show some (if i - (infoDate r - startDate (r0 :: rest)) ≤ MAX_FF_DAYS
            then some v else none)
          = some (if startDate (r0 :: rest) + i ≤ infoDate r + MAX_FF_DAYS
            then some v else none)
      have hcond : (i - (infoDate r - startDate (r0 :: rest)) ≤ MAX_FF_DAYS)
          ↔ (startDate (r0 :: rest) + i ≤ infoDate r + MAX_FF_DAYS) := by
        omega
      rw [if_congr hcond rfl rfl]

theorem C2_forward_fill_amended_witness :
    (alignCol [exT1, exT2] MAX_FF_DAYS "equity")[1]?
        = some (match latestValidRow [exT1, exT2] "equity" 46 with
            | some r =>
              if 46 ≤ infoDate r + MAX_FF_DAYS then r.cols.lookup "equity" else none
            | none => none) ∧
    startDate [exT1, exT2] ≤ 46 ∧ 46 ≤ stopDate [exT1, exT2] :=
  C2_forward_fill_amended [exT1, exT2] "equity" 1 46 (by decide) (by decide)

/-! ## Label construction (C6, C7) and the equity filter (C9) -/

theorem labelsGo_getElem? (g : List FeatRow) :
    ∀ (l : List FeatRow) (i k : Nat),
      (labelsGo g i l)[k]? = (l[k]?).map (fun r => mkLabeled g (i + k) r) := by
  intro l
  induction l with
  | nil => intro i k; simp [labelsGo]
  | cons r rest ih =>
    intro i k
    match k with
    | 0 => simp [labelsGo]
    | k + 1 =>
      simp only [labelsGo, List.getElem?_cons_succ, ih (i + 1) k]
      have : i + 1 + k = i + (k + 1) := by omega
      rw [this]

theorem addLabelsGroup_getElem? (g : List FeatRow) (i : Nat) :
    (addLabelsGroup g)[i]? = (g[i]?).map (fun r => mkLabeled g i r) := by
  unfold addLabelsGroup
  rw [labelsGo_getElem? g g 0 i]
  simp

/-- C6: in one ticker's block of the feature table, the row at position `i`
has `future_return = adj_close[i+63] / adj_close[i] - 1` exactly — indices
are positions of the block, not calendar days — absent when `i + 63` falls
past the block's end, and `excess_ret` is the difference of the two
forward returns (absent when either is). -/
theorem C6_label_formula (g : List FeatRow) (i : Nat) (x : FeatRow)
    (hx : g[i]? = some x) :
    ∃ r, (addLabelsGroup g)[i]? = some r ∧
      r.future_return
          = (g[i + HORIZON_DAYS]?).map (fun y => y.adj_close / x.adj_close - 1) ∧
      (g.length ≤ i + HORIZON_DAYS → r.future_return = none) ∧
      r.excess_ret = (match r.future_return, r.spy_future_ret with
        | some a, some b => some (a - b)
        | _, _ => none) := by
  refine ⟨mkLabeled g i x, ?_, ?_, ?_, ?_⟩
  · rw [addLabelsGroup_getElem?, hx]
    rfl
  · match hy : g[i + HORIZON_DAYS]? with
    | some y => simp [mkLabeled, hy]
    | none => simp [mkLabeled, hy]
  · intro hlen
    have hnone : g[i + HORIZON_DAYS]? = none := List.getElem?_eq_none hlen
    simp [mkLabeled, hnone]
  · simp only [mkLabeled]

theorem C6_label_formula_witness :
    ∃ r, (addLabelsGroup (List.replicate 64 exFR))[0]? = some r ∧
      r.future_return
          = ((List.replicate 64 exFR)[0 + HORIZON_DAYS]?).map
              (fun y => y.adj_close / exFR.adj_close - 1) ∧
      ((List.replicate 64 exFR).length ≤ 0 + HORIZON_DAYS → r.future_return = none) ∧
      r.excess_ret = (match r.future_return, r.spy_future_ret with
        | some a, some b => some (a - b)
        | _, _ => none) :=
  C6_label_formula (List.replicate 64 exFR) 0 exFR (by decide)

/-- C7 (code bug): at a concrete input whose rows all lack a forward
observation, the feature table keeps both rows with `future_return` and
`excess_ret` absent, yet assigns each the fabricated label `label_up = 0` —
pandas evaluates `NaN > 0` to `False` and `.astype(int)` turns it into 0. -/
theorem C7_label_synthesized_bug :
    (buildFeatures [exInput] (spyDaily exSpyRaw)).length = 2 ∧
    (buildFeatures [exInput] (spyDaily exSpyRaw)).all
      (fun r => decide (r.future_return = none) && decide (r.excess_ret = none) &&
        decide (r.label_up = 0)) = true := by
  refine ⟨by decide, by decide⟩

theorem equity_mkLabeled (g : List FeatRow) (i : Nat) (r : FeatRow) :
    (mkLabeled g i r).equity = r.equity := rfl

theorem equity_labelsGo (g : List FeatRow) :
    ∀ (l : List FeatRow) (i : Nat) (r : FeatRow), r ∈ labelsGo g i l →
      ∃ s ∈ l, r.equity = s.equity := by
  intro l
  induction l with
  | nil => intro i r hr; simp [labelsGo] at hr
  | cons x rest ih =>
    intro i r hr
    rcases List.mem_cons.mp hr with hr | hr
    · exact ⟨x, List.mem_cons_self x rest, by rw [hr]; rfl⟩
    · obtain ⟨s, hs, he⟩ := ih (i + 1) r hr
      exact ⟨s, List.mem_cons_of_mem x hs, he⟩

theorem equity_revQoqGo (g : List FeatRow) :
    ∀ (l : List FeatRow) (i : Nat) (r : FeatRow), r ∈ revQoqGo g i l →
      ∃ s ∈ l, r.equity = s.equity := by
  intro l
  induction l with
  | nil => intro i r hr; simp [revQoqGo] at hr
  | cons x rest ih =>
    intro i r hr
    rcases List.mem_cons.mp hr with hr | hr
    · exact ⟨x, List.mem_cons_self x rest, by rw [hr]⟩
    · obtain ⟨s, hs, he⟩ := ih (i + 1) r hr
      exact ⟨s, List.mem_cons_of_mem x hs, he⟩

/-- C9: every row of the final feature table has a present, strictly
positive equity. -/
theorem C9_positive_equity (inputs : List TickerInput)
    (spyD : List (Nat × Option ℚ)) (r : FeatRow)
    (hr : r ∈ buildFeatures inputs spyD) :
    ∃ e, r.equity = some e ∧ 0 < e := by
  obtain ⟨t, _, hblock⟩ := List.mem_flatMap.mp hr
  unfold buildTickerBlock addLabelsGroup at hblock
  obtain ⟨r1, h1, he1⟩ := equity_labelsGo _ _ _ _ hblock
  obtain ⟨r2, h2, he2⟩ : ∃ s ∈ addRevQoq (addRatios (posEquityFilter
      (mergeRows t.ticker t.prices t.fundRows t.shares))), r1.equity = s.equity := by
    obtain ⟨a, ha, hae⟩ := List.mem_map.mp h1
    exact ⟨a, ha, by rw [← hae]⟩
  unfold addRevQoq at h2
  obtain ⟨r3, h3, he3⟩ := equity_revQoqGo _ _ _ _ h2
  obtain ⟨r4, h4, he4⟩ : ∃ s ∈ posEquityFilter
      (mergeRows t.ticker t.prices t.fundRows t.shares), r3.equity = s.equity := by
    obtain ⟨a, ha, hae⟩ := List.mem_map.mp h3
    exact ⟨a, ha, by rw [← hae]⟩
  obtain ⟨hmem, hp⟩ := List.mem_filter.mp h4
  match he : r4.equity with
  | none => rw [he] at hp; simp at hp
  | some e =>
    rw [he] at hp
    simp only [decide_eq_true_eq] at hp
    exact ⟨e, by rw [he1, he2, he3, he4, he], hp⟩

theorem C9_positive_equity_witness : ∃ e, exOutRow.equity = some e ∧ 0 < e :=
  C9_positive_equity [exInput] (spyDaily exSpyRaw) exOutRow
    (List.getElem?_mem (rfl : (buildFeatures [exInput] (spyDaily exSpyRaw))[0]? = some exOutRow))

/-! ## Batch error propagation (C8) -/

theorem extract_error_of_malformed (d : RawDoc) (h : ¬ wellFormed d) :
    ∃ e, extract_company_table d = .error e := by
  unfold wellFormed at h
  match hc : d.cik with
  | none => exact ⟨.keyError "cik", by simp [extract_company_table, hc]⟩
  | some cik =>
    match hf : d.facts with
    | none => exact ⟨.keyError "facts", by simp [extract_company_table, hc, hf]⟩
    | some _ => exact absurd ⟨by simp [hc], by simp [hf]⟩ h

theorem extract_ok_of_wellFormed (d : RawDoc) (h : wellFormed d) :
    ∃ t, extract_company_table d = .ok t := by
  obtain ⟨h1, h2⟩ := h
  match hc : d.cik with
  | none => rw [hc] at h1; simp at h1
  | some cik =>
    match hf : d.facts with
    | none => rw [hf] at h2; simp at h2
    | some facts =>
      simp only [extract_company_table, hc, hf]
      by_cases he : (extractRows cik ((facts.lookup "us-gaap").getD [])).isEmpty = true
      · exact ⟨[], by rw [if_pos he]⟩
      · exact ⟨_, by rw [if_neg he]⟩

/-- C8 counterexample: `process_companies` has no try/except around
`extract_company_table`, so the `KeyError` of a malformed second document
aborts the loop: only the first document's table is produced, although the
third document is well-formed and would on its own have produced a
non-empty table. -/
theorem C8_batch_abort_counterexample :
    (process_companies [exGoodDoc, exBadDoc, exGoodDoc2]).2
        = some (.keyError "cik") ∧
    (process_companies [exGoodDoc, exBadDoc, exGoodDoc2]).1.length = 1 ∧
    extract_company_table exGoodDoc2
        = .ok [⟨"2", 11, 2021, "FY", [("assets", 6)]⟩] := by
  refine ⟨by decide, by decide, rfl⟩

/-- C8 amended: a malformed document makes `process_companies` raise at
that document; the documents before it in iteration order still produce
their output, the ones after it are never processed. -/
theorem C8_batch_abort_amended (pre : List RawDoc) (bad : RawDoc)
    (post : List RawDoc) (hpre : ∀ d ∈ pre, wellFormed d)
    (hbad : ¬ wellFormed bad) :
    (process_companies (pre ++ bad :: post)).2.isSome = true ∧
    (process_companies (pre ++ bad :: post)).1 = (process_companies pre).1 := by
  revert hpre
  induction pre with
  | nil =>
    intro _
    obtain ⟨e, he⟩ := extract_error_of_malformed bad hbad
    simp [process_companies, he]
  | cons d pre' ih =>
    intro hpre
    have hd : wellFormed d := hpre d (List.mem_cons_self d pre')
    have hpre' : ∀ x ∈ pre', wellFormed x :=
      fun x hx => hpre x (List.mem_cons_of_mem d hx)
    obtain ⟨t, ht⟩ := extract_ok_of_wellFormed d hd
    obtain ⟨ih1, ih2⟩ := ih hpre'
    rw [List.cons_append]
    simp only [process_companies, ht]
    by_cases hte : t.isEmpty = true
    · rw [if_pos hte, if_pos hte]
      exact ⟨ih1, ih2⟩
    · rw [if_neg hte, if_neg hte]
      exact ⟨ih1, by rw [ih2]⟩

theorem C8_batch_abort_amended_witness :
    (process_companies ([exGoodDoc] ++ exBadDoc :: [exGoodDoc2])).2.isSome = true ∧
    (process_companies ([exGoodDoc] ++ exBadDoc :: [exGoodDoc2])).1
        = (process_companies [exGoodDoc]).1 :=
  C8_batch_abort_amended [exGoodDoc] exBadDoc [exGoodDoc2] (by decide) (by decide)

/-! ## Duplicate info_dates abort the daily alignment (C10) -/

theorem nodup_info_iff_nodup_end (g : List WideRow) :
    (g.map infoDate).Nodup ↔ (g.map (fun r => r.endDate)).Nodup := by
  have hmap : g.map infoDate
      = (g.map (fun r => r.endDate)).map (fun n => n + INFO_LAG_DAYS) := by
    rw [List.map_map]
    rfl
  constructor
  · intro h
    rw [hmap] at h
    exact h.of_map _
  · intro h
    rw [hmap]
    exact h.map (fun a b hab => by omega)

theorem buildFundDaily_ok_nodup (groups : List (List WideRow)) (cols : List String) :
    ∀ out, buildFundDaily groups cols = .ok out →
      ∀ g ∈ groups, (g.map infoDate).Nodup := by
  induction groups with
  | nil => intro out _ g hg; simp at hg
  | cons g0 rest ih =>
    intro out hok g hg
    by_cases hnd : (g0.map infoDate).Nodup
    · rcases List.mem_cons.mp hg with hg | hg
      · exact hg ▸ hnd
      · simp only [buildFundDaily, alignE, if_pos hnd] at hok
        match hrest : buildFundDaily rest cols with
        | .error e => rw [hrest] at hok; cases hok
        | .ok ts => exact ih ts hrest g hg
    · simp only [buildFundDaily, alignE, if_neg hnd] at hok
      cases hok

theorem buildFundDaily_error_of_dup (groups : List (List WideRow))
    (cols : List String) (g : List WideRow) (hg : g ∈ groups)
    (hdup : ¬ (g.map infoDate).Nodup) :
    ∃ e, buildFundDaily groups cols = .error e := by
  induction groups with
  | nil => simp at hg
  | cons g0 rest ih =>
    rcases List.mem_cons.mp hg with hgg | hgg
    · subst hgg
      simp only [buildFundDaily, alignE, if_neg hdup]
      exact ⟨_, rfl⟩
    · by_cases hnd : (g0.map infoDate).Nodup
      · obtain ⟨e, he⟩ := ih hgg
        simp only [buildFundDaily, alignE, if_pos hnd, he]
        exact ⟨e, rfl⟩
      · simp only [buildFundDaily, alignE, if_neg hnd]
        exact ⟨_, rfl⟩

theorem pivotRows_dup_end (l : List Fact) (f1 f2 : Fact) (h1 : f1 ∈ l)
    (h2 : f2 ∈ l) (hk : pivotKey f1 ≠ pivotKey f2)
    (he : f1.endDate = f2.endDate) :
    ¬ ((pivotRows l).map (fun r => r.endDate)).Nodup := by
  intro hnod
  have hk1 : pivotKey f1 ∈ (l.map pivotKey).dedup :=
    List.mem_dedup.mpr (List.mem_map_of_mem pivotKey h1)
  have hk2 : pivotKey f2 ∈ (l.map pivotKey).dedup :=
    List.mem_dedup.mpr (List.mem_map_of_mem pivotKey h2)
  have hr1 : mkWideRow l (pivotKey f1) ∈ pivotRows l := by
    unfold pivotRows
    exact (sortK_perm _ _).mem_iff.mpr (List.mem_map_of_mem (mkWideRow l) hk1)
  have hr2 : mkWideRow l (pivotKey f2) ∈ pivotRows l := by
    unfold pivotRows
    exact (sortK_perm _ _).mem_iff.mpr (List.mem_map_of_mem (mkWideRow l) hk2)
  have hend : (mkWideRow l (pivotKey f1)).endDate = (mkWideRow l (pivotKey f2)).endDate := by
    simp [mkWideRow, pivotKey, he]
  have heq := List.inj_on_of_nodup_map hnod hr1 hr2 hend
  apply hk
  have h11 : (mkWideRow l (pivotKey f1)).cik = f1.cik := rfl
  have hfy : (mkWideRow l (pivotKey f1)).fy = f1.fy := rfl
  unfold pivotKey
  rw [show f1.cik = (mkWideRow l (pivotKey f1)).cik from rfl,
    show f1.endDate = (mkWideRow l (pivotKey f1)).endDate from rfl,
    show f1.fy = (mkWideRow l (pivotKey f1)).fy from rfl,
    show f1.fp = (mkWideRow l (pivotKey f1)).fp from rfl, heq]
  rfl

/-- C10: daily resampling is defined only for pairwise-distinct
`info_date`s — equivalently distinct `period_end_date`s: a successful
`fund_daily` build implies every entity's `info_date`s (and `end`s) were
distinct, a group with a duplicated `end` makes the whole run fail with
`asfreq`'s duplicate-label reindex error, and the pivot does keep two facts
with different `(cik, end, fy, fp)` keys but equal `end` — such as a Q4 row
and an FY row ending the same day — as separate wide rows sharing that
`end`. -/
theorem C10_distinct_info_dates (groups : List (List WideRow)) (cols : List String) :
    (∀ out, buildFundDaily groups cols = .ok out →
      ∀ g ∈ groups, (g.map infoDate).Nodup ∧ (g.map (fun r => r.endDate)).Nodup) ∧
    (∀ g ∈ groups, ¬ (g.map (fun r => r.endDate)).Nodup →
      ∃ e, buildFundDaily groups cols = .error e) ∧
    (∀ (l : List Fact) (f1 f2 : Fact), f1 ∈ l → f2 ∈ l →
      pivotKey f1 ≠ pivotKey f2 → f1.endDate = f2.endDate →
      ¬ ((pivotRows l).map (fun r => r.endDate)).Nodup) := by
  refine ⟨?_, ?_, ?_⟩
  · intro out hok g hg
    have hnd := buildFundDaily_ok_nodup groups cols out hok g hg
    exact ⟨hnd, (nodup_info_iff_nodup_end g).mp hnd⟩
  · intro g hg hdup
    exact buildFundDaily_error_of_dup groups cols g hg
      (fun h => hdup ((nodup_info_iff_nodup_end g).mp h))
  · exact pivotRows_dup_end

theorem C10_distinct_info_dates_witness :
    ∃ e, buildFundDaily [[exD1, exD2]] ["equity"] = .error e :=
  (C10_distinct_info_dates [[exD1, exD2]] ["equity"]).2.1 [exD1, exD2]
    (by decide) (by decide)

end ProfitCurve

